import Mathlib

/-!
Verification of the caches library (LRU and TTL eviction engines).

The Go sources are embedded shallowly:

* a Go `map[Key]Val` becomes an association list `List (Key × Val)` whose
  keys are kept unique by the operations (`mapLookup`, `mapInsert`,
  `mapErase` model `m[k]`, `m[k] = v` and `delete(m, k)`);
* `time.Now()` becomes an explicit `now : Int` argument threaded through
  the operations, and `time.Duration` / `time.Time` become `Int`
  (nanoseconds), so `time.Since(t)` is `now - t`;
* methods that mutate the receiver return the updated cache value, and a
  Go `(value, found bool)` result becomes an `Option`;
* the gods doubly linked list used for the LRU recency ordering becomes a
  `List Key` (head = least recently used, tail = most recently used).
-/

namespace Caches

variable {Key Val : Type} [DecidableEq Key]


/-- Go map read `v, ok := m[k]` on an association list. -/
def mapLookup : List (Key × Val) → Key → Option Val
  | [], _ => none
  | (k1, v1) :: rest, k => if k1 = k then some v1 else mapLookup rest k

/-- Go map write `m[k] = v`: overwrite the binding of `k` when present,
otherwise add a fresh binding. -/
def mapInsert : List (Key × Val) → Key → Val → List (Key × Val)
  | [], k, v => [(k, v)]
  | (k1, v1) :: rest, k, v =>
    if k1 = k then (k, v) :: rest else (k1, v1) :: mapInsert rest k v

/-- Go map deletion `delete(m, k)`. -/
def mapErase : List (Key × Val) → Key → List (Key × Val)
  | [], _ => []
  | (k1, v1) :: rest, k => if k1 = k then rest else (k1, v1) :: mapErase rest k

/-! ## LRU engine, from `src/cache/lru.go` (package `cache`)

`order` models the gods doubly linked list: head = least recently used,
tail = most recently used. -/

namespace cache

structure lruCache (Key Val : Type) where
  capacity : Nat
  store : List (Key × Val)
  order : List Key
deriving Repr, DecidableEq

/-- `NewLRU` rejects a non-positive capacity with a configuration error and
otherwise returns the empty cache. -/
def NewLRU (Key Val : Type) (cap : Int) : Except String (lruCache Key Val) :=
  if cap ≤ 0 then .error "capacity must be greater than zero"
  else .ok { capacity := cap.toNat, store := [], order := [] }

variable {Key Val : Type} [DecidableEq Key]

/-- `recentify`: `c.order.Remove(c.order.IndexOf(k)); c.order.Add(k)`.
`IndexOf` locates the first occurrence of `k` (`Remove` of index `-1` is a
no-op when `k` is absent), so the first occurrence of `k` is erased and `k`
is appended at the tail. -/
def lruCache.recentify (c : lruCache Key Val) (k : Key) : lruCache Key Val :=
  { c with order := c.order.erase k ++ [k] }

/-- `Get`: a hit returns the value and promotes the key to
most-recently-used; a miss returns the zero value and `false`. -/
def lruCache.Get (c : lruCache Key Val) (k : Key) :
    Option Val × lruCache Key Val :=
  match mapLookup c.store k with
  | some v => (some v, c.recentify k)
  | none => (none, c)

/-- `evict` removes the head of the ordering (the least recently used key)
from both the ordering and the store.  On an empty ordering the Go code
would fail its type assertion on a nil element; that state is unreachable
because `evict` is only called when `len(store) == capacity >= 1`. -/
def lruCache.evict (c : lruCache Key Val) : lruCache Key Val :=
  match c.order with
  | [] => c
  | t :: rest => { c with order := rest, store := mapErase c.store t }

/-- `Put`: overwrite-and-promote for a present key; for an absent key,
evict the LRU key first when the cache is full, then insert at the
most-recently-used position. -/
def lruCache.Put (c : lruCache Key Val) (k : Key) (v : Val) : lruCache Key Val :=
  match mapLookup c.store k with
  | some _ => lruCache.recentify { c with store := mapInsert c.store k v } k
  | none =>
    let c1 := if c.store.length = c.capacity then c.evict else c
    { c1 with store := mapInsert c1.store k v, order := c1.order ++ [k] }

/-- A client-visible operation on the LRU cache. -/
inductive LRUOp (Key Val : Type) where
  | get (k : Key)
  | put (k : Key) (v : Val)
deriving Repr, DecidableEq

def applyOp (c : lruCache Key Val) : LRUOp Key Val → lruCache Key Val
  | .get k => (c.Get k).2
  | .put k v => c.Put k v

/-- Run a sequence of operations from a starting state. -/
def runOps (c : lruCache Key Val) (ops : List (LRUOp Key Val)) : lruCache Key Val :=
  ops.foldl applyOp c

/-- Representation invariant of the LRU cache: the store has unique keys,
the ordering is a permutation of the store keys (hence also unique, same
length, same membership), the capacity is positive, and the size is within
capacity. -/
def lruInv (c : lruCache Key Val) : Prop :=
  (c.store.map Prod.fst).Nodup ∧
  (c.store.map Prod.fst).Perm c.order ∧
  0 < c.capacity ∧
  c.store.length ≤ c.capacity

instance (c : lruCache Key Val) : Decidable (lruInv c) := by
  unfold lruInv
  exact inferInstance

/-- Number of list nodes the gods `List.IndexOf` visits while scanning for
`k`: the doubly linked list has no key-to-node index, so `IndexOf` walks
from the head comparing element values one by one. -/
def indexOfSteps : List Key → Key → Nat
  | [], _ => 0
  | k1 :: rest, k => if k1 = k then 1 else 1 + indexOfSteps rest k

/-- Cost (in visited nodes) of the `IndexOf` scan performed by
`recentify k`, the "move key to tail of the ordering" operation. -/
def recentifySteps (c : lruCache Key Val) (k : Key) : Nat :=
  indexOfSteps c.order k

end cache

/-! ## TTL engine, from `src/ttl/ttl.go` (package `ttl`) -/

namespace ttl

/-- `cacheEntry`: the cached value and the timestamp of the last access. -/
structure cacheEntry (Val : Type) where
  val : Val
  lastVisited : Int
deriving Repr, DecidableEq

/-- `TTLCache` (field name `storege` is kept from the source). -/
structure TTLCache (Key Val : Type) where
  storege : List (Key × cacheEntry Val)
  timeToLive : Int
  resetOnRead : Bool
deriving Repr, DecidableEq

/-- `NewTTL` rejects a non-positive ttl with a configuration error and
otherwise returns the empty cache. -/
def NewTTL (Key Val : Type) (ttl : Int) (ror : Bool) : Except String (TTLCache Key Val) :=
  if ttl ≤ 0 then .error "ttl must be greater than zero."
  else .ok { storege := [], timeToLive := ttl, resetOnRead := ror }

variable {Key Val : Type} [DecidableEq Key]

/-- `Put` stores the value with `lastVisited = now`; the source branches on
whether the key pre-exists but both branches write the value and refresh
the timestamp, which is exactly `mapInsert`. -/
def TTLCache.Put (c : TTLCache Key Val) (now : Int) (k : Key) (v : Val) :
    TTLCache Key Val :=
  { c with storege := mapInsert c.storege k { val := v, lastVisited := now } }

/-- `Size` returns the raw entry count, expired entries included. -/
def TTLCache.Size (c : TTLCache Key Val) : Nat :=
  c.storege.length

/-- `Cleanup` deletes every entry with `time.Since(e.lastVisited) >=
c.timeToLive`; deleting from a Go map during `range` visits every
remaining key exactly once, so the sweep is a filter keeping the entries
with `now - e.lastVisited < c.timeToLive`. -/
def TTLCache.Cleanup (c : TTLCache Key Val) (now : Int) : TTLCache Key Val :=
  { c with storege := c.storege.filter fun kv => decide (now - kv.2.lastVisited < c.timeToLive) }

/-- The store of a TTL cache has unique keys. -/
def ttlNodup (c : TTLCache Key Val) : Prop :=
  (c.storege.map Prod.fst).Nodup

instance (c : TTLCache Key Val) : Decidable (ttlNodup c) := by
  unfold ttlNodup
  exact inferInstance

/-- State of a `sync.RWMutex`: how many readers hold the read lock and
whether the write lock is held. -/
structure RWMutex where
  readers : Nat
  writer : Bool
deriving Repr, DecidableEq

/-- `RLock` from a single goroutine: acquiring the read lock while the same
goroutine holds the write lock would deadlock. -/
def RWMutex.rlock (m : RWMutex) : Except String RWMutex :=
  if m.writer then .error "deadlock: RLock while write-locked"
  else .ok { m with readers := m.readers + 1 }

/-- `RUnlock`: unlocking a read lock that is not held is a fatal Go
runtime error. -/
def RWMutex.runlock (m : RWMutex) : Except String RWMutex :=
  if m.readers = 0 then .error "sync: RUnlock of unlocked RWMutex"
  else .ok { m with readers := m.readers - 1 }

/-- `Lock` from a single goroutine: taking the write lock while any lock is
held by the same goroutine would deadlock. -/
def RWMutex.lock (m : RWMutex) : Except String RWMutex :=
  if m.writer ∨ 0 < m.readers then .error "deadlock: Lock while locked"
  else .ok { m with writer := true }

/-- `Unlock`: unlocking a write lock that is not held is a fatal Go
runtime error. -/
def RWMutex.unlock (m : RWMutex) : Except String RWMutex :=
  if m.writer then .ok { m with writer := false }
  else .error "sync: Unlock of unlocked RWMutex"

/-- `Get` from `src/ttl/ttl.go` with its `RWMutex` operations made
explicit, starting from a free mutex.  The function registers
`defer c.mu.RUnlock()` immediately after `c.mu.RLock()`, and every return
path additionally releases the read lock itself (the miss and the expired
paths call `c.mu.RUnlock()` explicitly; the hit path registers a second
`defer c.mu.RUnlock()`), so the deferred unlock from the top of the
function always runs on a mutex whose read lock is no longer held. -/
def TTLCache.GetGo (c : TTLCache Key Val) (now : Int) (k : Key) :
    Except String ((Option Val × TTLCache Key Val) × RWMutex) := do
  let m0 ← RWMutex.rlock { readers := 0, writer := false }
  match mapLookup c.storege k with
  | none =>
    -- explicit c.mu.RUnlock(), then the deferred RUnlock
    let m1 ← m0.runlock
    let m2 ← m1.runlock
    return ((none, c), m2)
  | some e =>
    if now - e.lastVisited > c.timeToLive then do
      -- explicit RUnlock, write-locked delete, then the deferred RUnlock
      let m1 ← m0.runlock
      let m2 ← m1.lock
      let c1 : TTLCache Key Val := { c with storege := mapErase c.storege k }
      let m3 ← m2.unlock
      let m4 ← m3.runlock
      return ((none, c1), m4)
    else if c.resetOnRead then do
      -- RUnlock, write-locked refresh, RLock again, then both deferred RUnlocks
      let m1 ← m0.runlock
      let m2 ← m1.lock
      let c1 : TTLCache Key Val :=
        { c with storege := mapInsert c.storege k { e with lastVisited := now } }
      let m3 ← m2.unlock
      let m4 ← m3.rlock
      let m5 ← m4.runlock
      let m6 ← m5.runlock
      return ((some e.val, c1), m6)
    else do
      -- both deferred RUnlocks
      let m1 ← m0.runlock
      let m2 ← m1.runlock
      return ((some e.val, c), m2)

/-- Scheduling state of `ScheduleCleanup`: the `cleanupRunning` flag and
the number of live background cleanup goroutines.  `cleanupMu` serialises
the check-and-set in `ScheduleCleanup` and the flag reset in the
goroutine's deferred cleanup, so the protocol is a sequence of atomic
events. -/
structure SchedState where
  cleanupRunning : Bool
  activeTasks : Nat
deriving Repr, DecidableEq

/-- The two events of the scheduling protocol: a call to `ScheduleCleanup`
and the exit of the background task after its context is cancelled. -/
inductive SchedEvent where
  | schedule
  | cancelExit
deriving Repr, DecidableEq

/-- One atomic step of the protocol.  `schedule` is a no-op while the flag
is set, and otherwise sets the flag and starts one task; `cancelExit` is
the cancelled task clearing the flag in its deferred block as it exits. -/
def schedStep (s : SchedState) : SchedEvent → SchedState
  | .schedule =>
    if s.cleanupRunning then s
    else { cleanupRunning := true, activeTasks := s.activeTasks + 1 }
  | .cancelExit =>
    if s.activeTasks = 0 then s
    else { cleanupRunning := false, activeTasks := s.activeTasks - 1 }

/-- A fresh cache has no background task and a cleared flag. -/
def schedInit : SchedState :=
  { cleanupRunning := false, activeTasks := 0 }

def runSched (evs : List SchedEvent) : SchedState :=
  evs.foldl schedStep schedInit

/-- Protocol invariant: the flag is set exactly while one task is live. -/
def schedInv (s : SchedState) : Prop :=
  s.activeTasks = if s.cleanupRunning then 1 else 0

end ttl

/-! ## Concrete fixtures used by the claim theorems -/

def lruA : cache.lruCache Nat Int :=
  { capacity := 2, store := [], order := [] }

def lruF : cache.lruCache Nat Int :=
  { capacity := 1, store := [(0, 5)], order := [0] }

def lruG : cache.lruCache Nat Int :=
  { capacity := 2, store := [(0, 1), (1, 2)], order := [0, 1] }

def lruH : cache.lruCache Nat Int :=
  { capacity := 6
    store := [(0, 0), (1, 0), (2, 0), (3, 0), (4, 0), (5, 0)]
    order := [0, 1, 2, 3, 4, 5] }

def ttlB : ttl.TTLCache Nat Int :=
  { storege := [], timeToLive := 100, resetOnRead := false }

def ttlD : ttl.TTLCache Nat Int :=
  { storege := [(0, { val := 1, lastVisited := 0 }), (1, { val := 2, lastVisited := 80 })]
    timeToLive := 100, resetOnRead := false }

def ttlE : ttl.TTLCache Nat Int :=
  { storege := [], timeToLive := 100, resetOnRead := true }

/-! ## Lemmas -/

theorem mapLookup_eq_none_iff (s : List (Key × Val)) (k : Key) :
    mapLookup s k = none ↔ k ∉ s.map Prod.fst := by
  induction s with
  | nil => simp [mapLookup]
  | cons p rest ih =>
    obtain ⟨k1, v1⟩ := p
    by_cases h : k1 = k
    · subst h
      simp [mapLookup]
    · simp [mapLookup, h, ih, Ne.symm h]

theorem mem_of_mapLookup_eq_some {s : List (Key × Val)} {k : Key} {v : Val}
    (h : mapLookup s k = some v) : k ∈ s.map Prod.fst := by
  by_contra hm
  rw [← mapLookup_eq_none_iff] at hm
  rw [h] at hm
  exact Option.noConfusion hm

theorem mapLookup_eq_some_of_mem {s : List (Key × Val)} {k : Key}
    (h : k ∈ s.map Prod.fst) : ∃ v, mapLookup s k = some v := by
  cases hv : mapLookup s k with
  | none => exact absurd ((mapLookup_eq_none_iff s k).mp hv) (by simp [h])
  | some v => exact ⟨v, rfl⟩

theorem mapLookup_mapInsert_self (s : List (Key × Val)) (k : Key) (v : Val) :
    mapLookup (mapInsert s k v) k = some v := by
  induction s with
  | nil => simp [mapInsert, mapLookup]
  | cons p rest ih =>
    obtain ⟨k1, v1⟩ := p
    by_cases h : k1 = k
    · simp [mapInsert, h, mapLookup]
    · simp [mapInsert, h, mapLookup, ih]

theorem mapLookup_mapInsert_ne (s : List (Key × Val)) {j k : Key} (v : Val)
    (h : j ≠ k) : mapLookup (mapInsert s k v) j = mapLookup s j := by
  have h2 : ¬ k = j := Ne.symm h
  induction s with
  | nil => simp [mapInsert, mapLookup, h2]
  | cons p rest ih =>
    obtain ⟨k1, v1⟩ := p
    by_cases h1 : k1 = k
    · subst h1
      simp [mapInsert, mapLookup, h2]
    · simp only [mapInsert, if_neg h1, mapLookup]
      by_cases h3 : k1 = j
      · simp [h3]
      · simp [h3, ih]

theorem mapInsert_of_lookup_none {s : List (Key × Val)} {k : Key}
    (h : mapLookup s k = none) (v : Val) : mapInsert s k v = s ++ [(k, v)] := by
  induction s with
  | nil => simp [mapInsert]
  | cons p rest ih =>
    obtain ⟨k1, v1⟩ := p
    by_cases h1 : k1 = k
    · subst h1
      simp [mapLookup] at h
    · simp only [mapLookup, if_neg h1] at h
      simp [mapInsert, h1, ih h]

theorem map_fst_mapInsert_of_lookup_some {s : List (Key × Val)} {k : Key} {w : Val}
    (h : mapLookup s k = some w) (v : Val) :
    (mapInsert s k v).map Prod.fst = s.map Prod.fst := by
  induction s with
  | nil => simp [mapLookup] at h
  | cons p rest ih =>
    obtain ⟨k1, v1⟩ := p
    by_cases h1 : k1 = k
    · subst h1
      simp [mapInsert]
    · simp only [mapLookup, if_neg h1] at h
      simp [mapInsert, h1, ih h]

theorem length_mapInsert_of_lookup_some {s : List (Key × Val)} {k : Key} {w : Val}
    (h : mapLookup s k = some w) (v : Val) :
    (mapInsert s k v).length = s.length := by
  have := map_fst_mapInsert_of_lookup_some h v
  have h1 : ((mapInsert s k v).map Prod.fst).length = (s.map Prod.fst).length := by
    rw [this]
  simpa using h1

theorem map_fst_mapErase (s : List (Key × Val)) (k : Key) :
    (mapErase s k).map Prod.fst = (s.map Prod.fst).erase k := by
  induction s with
  | nil => simp [mapErase]
  | cons p rest ih =>
    obtain ⟨k1, v1⟩ := p
    by_cases h : k1 = k
    · subst h
      simp [mapErase]
    · simp [mapErase, h, List.erase_cons, ih]

theorem mapLookup_mapErase_ne (s : List (Key × Val)) {j k : Key}
    (h : j ≠ k) : mapLookup (mapErase s k) j = mapLookup s j := by
  have h2 : ¬ k = j := Ne.symm h
  induction s with
  | nil => simp [mapErase]
  | cons p rest ih =>
    obtain ⟨k1, v1⟩ := p
    by_cases h1 : k1 = k
    · subst h1
      simp [mapErase, mapLookup, h2]
    · simp only [mapErase, if_neg h1, mapLookup]
      by_cases h3 : k1 = j
      · simp [h3]
      · simp [h3, ih]

theorem mapLookup_mapErase_self {s : List (Key × Val)} (k : Key)
    (hnd : (s.map Prod.fst).Nodup) : mapLookup (mapErase s k) k = none := by
  induction s with
  | nil => simp [mapErase, mapLookup]
  | cons p rest ih =>
    obtain ⟨k1, v1⟩ := p
    simp only [List.map_cons, List.nodup_cons] at hnd
    by_cases h : k1 = k
    · subst h
      simp only [mapErase, if_pos rfl]
      exact (mapLookup_eq_none_iff rest k1).mpr hnd.1
    · simp [mapErase, h, mapLookup, ih hnd.2]

theorem mapLookup_mapErase_of_none {s : List (Key × Val)} {k : Key}
    (h : mapLookup s k = none) (hd : Key) : mapLookup (mapErase s hd) k = none := by
  induction s with
  | nil => simp [mapErase, mapLookup]
  | cons p rest ih =>
    obtain ⟨k1, v1⟩ := p
    by_cases h1 : k1 = k
    · subst h1
      simp [mapLookup] at h
    · simp only [mapLookup, if_neg h1] at h
      by_cases h2 : k1 = hd
      · simp [mapErase, h2, h]
      · simp [mapErase, h2, mapLookup, h1, ih h]

theorem length_mapErase_of_lookup_some {s : List (Key × Val)} {k : Key} {w : Val}
    (h : mapLookup s k = some w) : (mapErase s k).length + 1 = s.length := by
  induction s with
  | nil => simp [mapLookup] at h
  | cons p rest ih =>
    obtain ⟨k1, v1⟩ := p
    by_cases h1 : k1 = k
    · subst h1
      simp [mapErase]
    · simp only [mapLookup, if_neg h1] at h
      simp [mapErase, h1, ← ih h]

theorem mapLookup_append_of_some {s : List (Key × Val)} {k : Key} {v : Val}
    (h : mapLookup s k = some v) (t : List (Key × Val)) :
    mapLookup (s ++ t) k = some v := by
  induction s with
  | nil => simp [mapLookup] at h
  | cons p rest ih =>
    obtain ⟨k1, v1⟩ := p
    by_cases h1 : k1 = k
    · subst h1
      simp [mapLookup] at h
      simp [mapLookup, h]
    · simp only [mapLookup, if_neg h1] at h
      simp [mapLookup, h1, ih h]

theorem mapLookup_append_of_none {s : List (Key × Val)} {k : Key}
    (h : mapLookup s k = none) (t : List (Key × Val)) :
    mapLookup (s ++ t) k = mapLookup t k := by
  induction s with
  | nil => simp
  | cons p rest ih =>
    obtain ⟨k1, v1⟩ := p
    by_cases h1 : k1 = k
    · subst h1
      simp [mapLookup] at h
    · simp only [mapLookup, if_neg h1] at h
      simp [mapLookup, h1, ih h]

theorem mapLookup_filter (s : List (Key × Val)) (p : Key × Val → Bool) (k : Key)
    (hnd : (s.map Prod.fst).Nodup) :
    mapLookup (s.filter p) k =
      match mapLookup s k with
      | none => none
      | some v => if p (k, v) then some v else none := by
  induction s with
  | nil => simp [mapLookup]
  | cons q rest ih =>
    obtain ⟨k1, v1⟩ := q
    simp only [List.map_cons, List.nodup_cons] at hnd
    have hrest := ih hnd.2
    by_cases h : k1 = k
    · subst h
      have hnone : mapLookup rest k1 = none := (mapLookup_eq_none_iff rest k1).mpr hnd.1
      by_cases hp : p (k1, v1)
      · simp [List.filter_cons, hp, mapLookup]
      · simp [List.filter_cons, hp, mapLookup, hrest, hnone]
    · by_cases hp : p (k1, v1)
      · simp [List.filter_cons, hp, mapLookup, h, hrest]
      · simp [List.filter_cons, hp, mapLookup, h, hrest]

omit [DecidableEq Key] in
theorem map_fst_filter_nodup (s : List (Key × Val)) (p : Key × Val → Bool)
    (hnd : (s.map Prod.fst).Nodup) : ((s.filter p).map Prod.fst).Nodup := by
  have hs : (s.filter p).Sublist s := List.filter_sublist s
  exact hnd.sublist (hs.map Prod.fst)

namespace cache

variable {Key Val : Type} [DecidableEq Key]

omit [DecidableEq Key] in
theorem lruInv_of_NewLRU {cap : Int} {c : lruCache Key Val}
    (h : NewLRU Key Val cap = .ok c) : lruInv c := by
  unfold NewLRU at h
  by_cases hc : cap ≤ 0
  · simp [hc] at h
  · simp only [hc, if_neg, if_false] at h
    cases h
    refine ⟨List.nodup_nil, List.Perm.refl _, ?_, by simp⟩
    simp only [Int.lt_toNat]
    omega

theorem mem_order_of_lookup_some {c : lruCache Key Val} {k : Key} {v : Val}
    (hinv : lruInv c) (h : mapLookup c.store k = some v) : k ∈ c.order :=
  hinv.2.1.mem_iff.mp (mem_of_mapLookup_eq_some h)

theorem lruInv_recentify {c : lruCache Key Val} {k : Key} (hinv : lruInv c)
    (hmem : k ∈ c.order) : lruInv { c with order := c.order.erase k ++ [k] } := by
  obtain ⟨hnd, hperm, hcap, hlen⟩ := hinv
  refine ⟨hnd, ?_, hcap, hlen⟩
  have h1 : c.order.Perm (k :: c.order.erase k) := List.perm_cons_erase hmem
  have h2 : (c.order.erase k ++ [k]).Perm (k :: c.order.erase k) :=
    List.perm_append_singleton k (c.order.erase k)
  exact (hperm.trans h1).trans h2.symm

theorem lruInv_get (c : lruCache Key Val) (k : Key) (hinv : lruInv c) :
    lruInv (c.Get k).2 := by
  unfold lruCache.Get
  cases hm : mapLookup c.store k with
  | none => exact hinv
  | some v => exact lruInv_recentify hinv (mem_order_of_lookup_some hinv hm)

theorem lruInv_put (c : lruCache Key Val) (k : Key) (v : Val) (hinv : lruInv c) :
    lruInv (c.Put k v) := by
  unfold lruCache.Put
  cases hm : mapLookup c.store k with
  | some w =>
    have hmem : k ∈ c.order := mem_order_of_lookup_some hinv hm
    obtain ⟨hnd, hperm, hcap, hlen⟩ := hinv
    have hfst := map_fst_mapInsert_of_lookup_some hm v
    have hlen2 := length_mapInsert_of_lookup_some hm v
    exact lruInv_recentify
      (c := { c with store := mapInsert c.store k v })
      ⟨by rw [hfst]; exact hnd, by rw [hfst]; exact hperm, hcap, by rw [hlen2]; exact hlen⟩
      hmem
  | none =>
    obtain ⟨hnd, hperm, hcap, hlen⟩ := hinv
    have hknot : k ∉ c.store.map Prod.fst := (mapLookup_eq_none_iff _ _).mp hm
    by_cases hfull : c.store.length = c.capacity
    · -- the cache is full: the head of the ordering is evicted first
      have hordlen : c.order.length = c.store.length := by
        rw [← hperm.length_eq, List.length_map]
      cases horder : c.order with
      | nil =>
        exfalso
        rw [horder] at hordlen
        simp at hordlen
        omega
      | cons hd tl =>
        have hhd : hd ∈ c.order := by rw [horder]; exact List.mem_cons_self hd tl
        have hhdstore : hd ∈ c.store.map Prod.fst := hperm.mem_iff.mpr hhd
        obtain ⟨w, hw⟩ := mapLookup_eq_some_of_mem hhdstore
        have hkhd : k ≠ hd := fun he => hknot (he ▸ hhdstore)
        have hlookerase : mapLookup (mapErase c.store hd) k = none := by
          rw [mapLookup_mapErase_ne c.store hkhd]; exact hm
        have hins : mapInsert (mapErase c.store hd) k v = mapErase c.store hd ++ [(k, v)] :=
          mapInsert_of_lookup_none hlookerase v
        have hfst2 : (mapErase c.store hd).map Prod.fst = (c.store.map Prod.fst).erase hd :=
          map_fst_mapErase c.store hd
        have hlen3 : (mapErase c.store hd).length + 1 = c.store.length :=
          length_mapErase_of_lookup_some hw
        have hpermtl : ((c.store.map Prod.fst).erase hd).Perm tl := by
          have := hperm.erase hd
          rw [horder] at this
          simpa using this
        have hknot2 : k ∉ (c.store.map Prod.fst).erase hd := fun hmem2 =>
          hknot (List.mem_of_mem_erase hmem2)
        simp only [lruCache.evict, horder, hfull, if_pos]
        refine ⟨?_, ?_, hcap, ?_⟩
        · rw [hins]
          simp only [List.map_append, List.map_cons, List.map_nil, hfst2]
          rw [List.nodup_append]
          exact ⟨hnd.erase hd, List.nodup_singleton k, by simpa using hknot2⟩
        · rw [hins]
          simp only [List.map_append, List.map_cons, List.map_nil, hfst2]
          exact List.Perm.append_right [k] hpermtl
        · rw [hins]
          simp only [List.length_append, List.length_cons, List.length_nil]
          omega
    · -- the cache is not full: plain insertion at the tail
      have hins : mapInsert c.store k v = c.store ++ [(k, v)] :=
        mapInsert_of_lookup_none hm v
      simp only [hfull, if_neg, if_false]
      refine ⟨?_, ?_, hcap, ?_⟩
      · rw [hins]
        simp only [List.map_append, List.map_cons, List.map_nil]
        rw [List.nodup_append]
        exact ⟨hnd, List.nodup_singleton k, by simpa using hknot⟩
      · rw [hins]
        simp only [List.map_append, List.map_cons, List.map_nil]
        exact List.Perm.append_right [k] hperm
      · rw [hins]
        simp only [List.length_append, List.length_cons, List.length_nil]
        omega

/-- On a full cache, `Put` of an absent key is eviction of the head of the
ordering followed by insertion at the tail. -/
theorem put_full_absent {c : lruCache Key Val} {k : Key} (v : Val) {hd : Key} {tl : List Key}
    (hm : mapLookup c.store k = none) (hfull : c.store.length = c.capacity)
    (horder : c.order = hd :: tl) :
    c.Put k v = { c with store := mapErase c.store hd ++ [(k, v)], order := tl ++ [k] } := by
  have herase : mapLookup (mapErase c.store hd) k = none :=
    mapLookup_mapErase_of_none hm hd
  unfold lruCache.Put
  rw [hm]
  simp only [hfull, if_pos, if_true]
  unfold lruCache.evict
  rw [horder]
  simp only []
  rw [mapInsert_of_lookup_none herase v]

theorem lruInv_applyOp (c : lruCache Key Val) (op : LRUOp Key Val)
    (hinv : lruInv c) : lruInv (applyOp c op) := by
  cases op with
  | get k => exact lruInv_get c k hinv
  | put k v => exact lruInv_put c k v hinv

theorem lruInv_runOps (ops : List (LRUOp Key Val)) :
    ∀ c : lruCache Key Val, lruInv c → lruInv (runOps c ops) := by
  induction ops with
  | nil => intro c hinv; exact hinv
  | cons op rest ih =>
    intro c hinv
    exact ih (applyOp c op) (lruInv_applyOp c op hinv)

theorem indexOfSteps_append_self (l : List Key) (k : Key) (h : k ∉ l) :
    indexOfSteps (l ++ [k]) k = l.length + 1 := by
  induction l with
  | nil => simp [indexOfSteps]
  | cons k1 rest ih =>
    simp only [List.mem_cons, not_or] at h
    have hne : ¬ k1 = k := fun he => h.1 (Eq.symm he)
    simp only [List.cons_append, indexOfSteps, if_neg hne, List.length_cons,
      List.append_eq]
    rw [ih h.2]
    omega

/-- Running a sequence of `Put`s of pairwise-distinct fresh keys that fits
within the remaining capacity appends the keys, in order, to both the
store and the recency ordering. -/
theorem runOps_fresh_puts (w : Val) (l : List Key) :
    ∀ c : lruCache Key Val, l.Nodup →
      (∀ k ∈ l, mapLookup c.store k = none) →
      c.store.length + l.length ≤ c.capacity →
      (runOps c (l.map fun k => LRUOp.put k w)).store = c.store ++ l.map (fun k => (k, w)) ∧
      (runOps c (l.map fun k => LRUOp.put k w)).order = c.order ++ l ∧
      (runOps c (l.map fun k => LRUOp.put k w)).capacity = c.capacity := by
  induction l with
  | nil => intro c _ _ _; simp [runOps]
  | cons k0 rest ih =>
    intro c hnd habs hlen
    simp only [List.nodup_cons] at hnd
    have h0 : mapLookup c.store k0 = none := habs k0 (List.mem_cons_self k0 rest)
    have hnotfull : c.store.length ≠ c.capacity := by
      simp only [List.length_cons] at hlen
      omega
    have hput : c.Put k0 w =
        { c with store := c.store ++ [(k0, w)], order := c.order ++ [k0] } := by
      unfold lruCache.Put
      rw [h0]
      simp only [hnotfull, if_neg, if_false]
      rw [mapInsert_of_lookup_none h0 w]
    have hrun : runOps c ((k0 :: rest).map fun k => LRUOp.put k w) =
        runOps (c.Put k0 w) (rest.map fun k => LRUOp.put k w) := by
      simp [runOps, applyOp, List.foldl_cons]
    rw [hrun, hput]
    have hstep := ih { c with store := c.store ++ [(k0, w)], order := c.order ++ [k0] }
      hnd.2
      (by
        intro k hk
        have hne : k ≠ k0 := fun he => hnd.1 (he ▸ hk)
        have hne2 : ¬ k0 = k := fun he => hne (Eq.symm he)
        rw [mapLookup_append_of_none (habs k (List.mem_cons_of_mem k0 hk))]
        simp [mapLookup, hne2])
      (by
        simp only [List.length_append, List.length_cons, List.length_nil]
        simp only [List.length_cons] at hlen
        omega)
    obtain ⟨hs, ho, hc⟩ := hstep
    refine ⟨?_, ?_, ?_⟩
    · rw [hs]; simp
    · rw [ho]; simp
    · rw [hc]

end cache

namespace ttl

variable {Key Val : Type} [DecidableEq Key]

omit [DecidableEq Key] in
theorem ttlNodup_of_NewTTL {ttl : Int} {ror : Bool} {c : TTLCache Key Val}
    (h : NewTTL Key Val ttl ror = .ok c) : ttlNodup c := by
  unfold NewTTL at h
  by_cases ht : ttl ≤ 0
  · simp [ht] at h
  · simp only [ht, if_neg, if_false] at h
    cases h
    exact List.nodup_nil

theorem ttlNodup_put (c : TTLCache Key Val) (now : Int) (k : Key) (v : Val)
    (h : ttlNodup c) : ttlNodup (c.Put now k v) := by
  unfold TTLCache.Put ttlNodup
  cases hm : mapLookup c.storege k with
  | some e =>
    simpa [map_fst_mapInsert_of_lookup_some hm] using h
  | none =>
    rw [mapInsert_of_lookup_none hm]
    simp only [List.map_append, List.map_cons, List.map_nil]
    rw [List.nodup_append]
    refine ⟨h, List.nodup_singleton k, ?_⟩
    simpa using (mapLookup_eq_none_iff c.storege k).mp hm

omit [DecidableEq Key] in
theorem ttlNodup_cleanup (c : TTLCache Key Val) (now : Int)
    (h : ttlNodup c) : ttlNodup (c.Cleanup now) :=
  map_fst_filter_nodup c.storege _ h

theorem schedInv_step (s : SchedState) (e : SchedEvent) (h : schedInv s) :
    schedInv (schedStep s e) := by
  cases e with
  | schedule =>
    by_cases hr : s.cleanupRunning
    · simpa [schedStep, hr] using h
    · have h0 : s.activeTasks = 0 := by simpa [schedInv, hr] using h
      simp [schedStep, hr, schedInv, h0]
  | cancelExit =>
    by_cases ht : s.activeTasks = 0
    · simpa [schedStep, ht] using h
    · have h1 : s.activeTasks = 1 := by
        unfold schedInv at h
        by_cases hr : s.cleanupRunning
        · simpa [hr] using h
        · simp [hr] at h
          exact absurd h ht
      simp [schedStep, ht, schedInv, h1]

theorem schedInv_runSched (evs : List SchedEvent) : schedInv (runSched evs) := by
  have hgen : ∀ s : SchedState, schedInv s → schedInv (evs.foldl schedStep s) := by
    induction evs with
    | nil => intro s hs; exact hs
    | cons e rest ih =>
      intro s hs
      exact ih (schedStep s e) (schedInv_step s e hs)
  exact hgen schedInit rfl

end ttl

/-! ## Claims -/

/-- C1: the claim says a present, expired entry (`now - last_access_time
>= ttl`) makes `Get` return not-found and removes the entry (lazy
expiration).  The code never gets that far: on the claim's own trigger —
ttl = 100, `Put(0, 1)` at t = 0, `Get(0)` at t = 150, so the key is
present with age 150 ≥ 100 — the call dies with the fatal Go runtime
error `sync: RUnlock of unlocked RWMutex` (the expired path explicitly
RUnlocks and then the deferred RUnlock from the top of `Get` runs on the
already-released read lock), so no not-found result is ever returned.
(Value-wise the expired branch also tests `time.Since > ttl` strictly,
unlike the claim's `>=` and `Cleanup`'s `>=`.) -/
theorem claim1_expired_get_fatal :
    ttl.NewTTL Nat Int 100 false = Except.ok ttlB ∧
    mapLookup (ttlB.Put 0 0 1).storege 0 = some { val := 1, lastVisited := 0 } ∧
    (150 : Int) - 0 ≥ 100 ∧
    (ttlB.Put 0 0 1).GetGo 150 0 =
      Except.error "sync: RUnlock of unlocked RWMutex" :=
  ⟨rfl, rfl, by decide, rfl⟩

/-- C2: the claim says `Get` never fails.  In `src/ttl/ttl.go` the function
registers `defer c.mu.RUnlock()` and every return path additionally
releases the read lock itself, so every call — hit, miss, expired, with or
without `resetOnRead` — performs one more `RUnlock` than `RLock` and dies
with the fatal Go runtime error `sync: RUnlock of unlocked RWMutex`. -/
theorem claim2_get_always_faults (c : ttl.TTLCache Nat Int) (now : Int) (k : Nat) :
    c.GetGo now k = Except.error "sync: RUnlock of unlocked RWMutex" := by
  unfold ttl.TTLCache.GetGo
  cases hm : mapLookup c.storege k with
  | none =>
    simp [hm, ttl.RWMutex.rlock, ttl.RWMutex.runlock, bind, Except.bind]
  | some e =>
    by_cases hexp : now - e.lastVisited > c.timeToLive
    · simp [hm, hexp, ttl.RWMutex.rlock, ttl.RWMutex.runlock, ttl.RWMutex.lock,
        ttl.RWMutex.unlock, bind, Except.bind]
    · by_cases hror : c.resetOnRead
      · simp [hm, hexp, hror, ttl.RWMutex.rlock, ttl.RWMutex.runlock, ttl.RWMutex.lock,
          ttl.RWMutex.unlock, bind, Except.bind]
      · simp [hm, hexp, hror, ttl.RWMutex.rlock, ttl.RWMutex.runlock, bind, Except.bind]

/-- C3: at most one background cleanup task is ever active; a
`ScheduleCleanup` call made while the flag is set is a no-op, and after
the active task exits on cancellation a later call starts a new task. -/
theorem claim3_single_cleanup_task :
    (∀ evs : List ttl.SchedEvent, (ttl.runSched evs).activeTasks ≤ 1) ∧
    (∀ s : ttl.SchedState,
        ttl.schedStep { s with cleanupRunning := true } ttl.SchedEvent.schedule =
          { s with cleanupRunning := true }) ∧
    ttl.runSched [ttl.SchedEvent.schedule, ttl.SchedEvent.schedule] =
      { cleanupRunning := true, activeTasks := 1 } ∧
    ttl.runSched [ttl.SchedEvent.schedule, ttl.SchedEvent.cancelExit, ttl.SchedEvent.schedule] =
      { cleanupRunning := true, activeTasks := 1 } := by
  refine ⟨?_, ?_, by decide, by decide⟩
  · intro evs
    have h := ttl.schedInv_runSched evs
    unfold ttl.schedInv at h
    by_cases hr : (ttl.runSched evs).cleanupRunning
    · simp [hr] at h
      omega
    · simp [hr] at h
      omega
  · intro s
    simp [ttl.schedStep]

/-- C4: starting from any successfully constructed LRU cache, the size is
at most the capacity after every sequence of `Get`/`Put` operations; and a
`Put` of an absent key on a full cache first deletes the head of the
ordering from both structures (dropping the size strictly below capacity)
and only then inserts, so the size never exceeds the capacity. -/
theorem claim4_capacity_invariant {Key Val : Type} [DecidableEq Key] :
    (∀ (cap : Int) (c0 : cache.lruCache Key Val),
        cache.NewLRU Key Val cap = Except.ok c0 →
        ∀ ops : List (cache.LRUOp Key Val),
          (cache.runOps c0 ops).store.length ≤ (cache.runOps c0 ops).capacity) ∧
    (∀ (c : cache.lruCache Key Val) (k : Key) (v : Val) (hd : Key),
        cache.lruInv c → mapLookup c.store k = none →
        c.store.length = c.capacity → c.order.head? = some hd →
        (c.evict).store.length + 1 = c.capacity ∧
        (c.Put k v).store.length = c.capacity ∧
        mapLookup (c.Put k v).store hd = none ∧
        hd ∉ (c.Put k v).order) := by
  constructor
  · intro cap c0 h ops
    exact (cache.lruInv_runOps ops c0 (cache.lruInv_of_NewLRU h)).2.2.2
  · intro c k v hd hinv hm hfull hhd
    obtain ⟨hnd, hperm, hcap, hlen⟩ := hinv
    obtain ⟨tl, horder⟩ : ∃ tl, c.order = hd :: tl := by
      cases ho : c.order with
      | nil => rw [ho] at hhd; simp at hhd
      | cons a t =>
        rw [ho] at hhd
        simp only [List.head?_cons, Option.some.injEq] at hhd
        exact ⟨t, by rw [hhd]⟩
    have hhdmem : hd ∈ c.store.map Prod.fst := hperm.mem_iff.mpr (by
      rw [horder]; exact List.mem_cons_self hd tl)
    obtain ⟨w, hw⟩ := mapLookup_eq_some_of_mem hhdmem
    have hkhd : ¬ (hd = k) := fun he =>
      ((mapLookup_eq_none_iff c.store k).mp hm) (he ▸ hhdmem)
    have hkhd2 : ¬ (k = hd) := fun he => hkhd (Eq.symm he)
    have herase : (mapErase c.store hd).length + 1 = c.store.length :=
      length_mapErase_of_lookup_some hw
    have hput := cache.put_full_absent v hm hfull horder
    have hordnd : c.order.Nodup := (hperm.nodup_iff).mp hnd
    refine ⟨?_, ?_, ?_, ?_⟩
    · unfold cache.lruCache.evict
      rw [horder]
      simp only []
      omega
    · rw [hput]
      simp only [List.length_append, List.length_cons, List.length_nil]
      omega
    · rw [hput]
      simp only []
      rw [mapLookup_append_of_none (mapLookup_mapErase_self hd hnd)]
      simp [mapLookup, hkhd2]
    · rw [hput]
      simp only [List.mem_append, List.mem_singleton, not_or]
      constructor
      · rw [horder] at hordnd
        exact (List.nodup_cons.mp hordnd).1
      · exact hkhd

/-- C4 (witness): the general theorem applied to a fresh capacity-1 cache
run through two `Put`s, and to a full one-entry cache receiving a fresh
key. -/
theorem claim4_witness :
    (cache.runOps lruA [cache.LRUOp.put 0 1, cache.LRUOp.put 1 2,
        cache.LRUOp.put 2 3]).store.length ≤
      (cache.runOps lruA [cache.LRUOp.put 0 1, cache.LRUOp.put 1 2,
        cache.LRUOp.put 2 3]).capacity ∧
    (lruF.evict).store.length + 1 = lruF.capacity ∧
    (lruF.Put 1 6).store.length = lruF.capacity ∧
    mapLookup (lruF.Put 1 6).store 0 = none ∧
    0 ∉ (lruF.Put 1 6).order := by
  have h := @claim4_capacity_invariant Nat Int _
  have h1 := h.1 2 lruA rfl [cache.LRUOp.put 0 1, cache.LRUOp.put 1 2, cache.LRUOp.put 2 3]
  have h2 := h.2 lruF 1 6 0 (by decide) (by decide) (by decide) rfl
  exact ⟨h1, h2.1, h2.2.1, h2.2.2.1, h2.2.2.2⟩

/-- C5: eviction removes exactly the head of the recency ordering (every
other stored key keeps its binding), a `Get` hit promotes the key to the
most-recently-used position (tail), and the concrete capacity-2 scenario
`Put(0,1), Put(1,2), Get(0), Put(2,3)` then misses key 1 and still finds
key 0 with value 1. -/
theorem claim5_lru_eviction_order {Key Val : Type} [DecidableEq Key] :
    (∀ (c : cache.lruCache Key Val) (k : Key) (v : Val),
        mapLookup c.store k = some v →
        (c.Get k).1 = some v ∧ ((c.Get k).2).order.getLast? = some k) ∧
    (∀ (c : cache.lruCache Key Val) (k : Key) (v : Val) (hd : Key),
        cache.lruInv c → mapLookup c.store k = none →
        c.store.length = c.capacity → c.order.head? = some hd →
        mapLookup (c.Put k v).store hd = none ∧
        (∀ j, j ∈ c.order → j ≠ hd →
          mapLookup (c.Put k v).store j = mapLookup c.store j) ∧
        (c.Put k v).order.getLast? = some k) ∧
    (cache.NewLRU Nat Int 2 = Except.ok lruA ∧
     ((cache.runOps lruA [cache.LRUOp.put 0 1, cache.LRUOp.put 1 2,
        cache.LRUOp.get 0, cache.LRUOp.put 2 3]).Get 1).1 = none ∧
     ((cache.runOps lruA [cache.LRUOp.put 0 1, cache.LRUOp.put 1 2,
        cache.LRUOp.get 0, cache.LRUOp.put 2 3]).Get 0).1 = some 1) := by
  refine ⟨?_, ?_, rfl, rfl, rfl⟩
  · intro c k v hk
    unfold cache.lruCache.Get
    rw [hk]
    exact ⟨rfl, List.getLast?_concat _⟩
  · intro c k v hd hinv hm hfull hhd
    obtain ⟨hnd, hperm, hcap, hlen⟩ := hinv
    obtain ⟨tl, horder⟩ : ∃ tl, c.order = hd :: tl := by
      cases ho : c.order with
      | nil => rw [ho] at hhd; simp at hhd
      | cons a t =>
        rw [ho] at hhd
        simp only [List.head?_cons, Option.some.injEq] at hhd
        exact ⟨t, by rw [hhd]⟩
    have hhdmem : hd ∈ c.store.map Prod.fst := hperm.mem_iff.mpr (by
      rw [horder]; exact List.mem_cons_self hd tl)
    have hkhd : ¬ (hd = k) := fun he =>
      ((mapLookup_eq_none_iff c.store k).mp hm) (he ▸ hhdmem)
    have hkhd2 : ¬ (k = hd) := fun he => hkhd (Eq.symm he)
    have hput := cache.put_full_absent v hm hfull horder
    refine ⟨?_, ?_, ?_⟩
    · rw [hput]
      simp only []
      rw [mapLookup_append_of_none (mapLookup_mapErase_self hd hnd)]
      simp [mapLookup, hkhd2]
    · intro j hj hjhd
      rw [hput]
      simp only []
      have hjmem : j ∈ c.store.map Prod.fst := hperm.mem_iff.mpr hj
      obtain ⟨wj, hwj⟩ := mapLookup_eq_some_of_mem hjmem
      have : mapLookup (mapErase c.store hd) j = some wj := by
        rw [mapLookup_mapErase_ne c.store hjhd]
        exact hwj
      rw [mapLookup_append_of_some this, hwj]
    · rw [hput]
      exact List.getLast?_concat _

/-- C5 (witness): the `Get`-promotion conjunct applied to a two-entry
cache, and the eviction conjunct applied to a full one-entry cache. -/
theorem claim5_witness :
    ((lruG.Get 0).1 = some 1 ∧ ((lruG.Get 0).2).order.getLast? = some 0) ∧
    (mapLookup (lruF.Put 1 6).store 0 = none ∧
     mapLookup (lruG.Put 2 9).store 1 = mapLookup lruG.store 1 ∧
     (lruF.Put 1 6).order.getLast? = some 1) := by
  have h := @claim5_lru_eviction_order Nat Int _
  have ha := h.1 lruG 0 1 (by decide)
  have hb := h.2.1 lruF 1 6 0 (by decide) (by decide) (by decide) rfl
  have hc := h.2.1 lruG 2 9 0 (by decide) (by decide) (by decide) rfl
  exact ⟨⟨ha.1, ha.2⟩, hb.1, hc.2.1 1 (by decide) (by decide), hb.2.2⟩

/-- C6: `Cleanup` removes all and only the entries whose age at the time
of the call is at least the configured ttl; every fresher entry keeps its
value and timestamp unchanged. -/
theorem claim6_cleanup_exact {Key Val : Type} [DecidableEq Key]
    (c : ttl.TTLCache Key Val) (now : Int) (k : Key) (hnd : ttl.ttlNodup c) :
    mapLookup ((c.Cleanup now).storege) k =
      match mapLookup c.storege k with
      | none => none
      | some e => if now - e.lastVisited ≥ c.timeToLive then none else some e := by
  unfold ttl.TTLCache.Cleanup
  simp only []
  rw [mapLookup_filter c.storege _ k hnd]
  cases hm : mapLookup c.storege k with
  | none => rfl
  | some e =>
    by_cases hexp : now - e.lastVisited ≥ c.timeToLive
    · have hnot : ¬ (now - e.lastVisited < c.timeToLive) := not_lt.mpr hexp
      simp [hexp, hnot]
    · have hlt : now - e.lastVisited < c.timeToLive := lt_of_not_ge hexp
      simp [hexp, hlt]

/-- C6 (witness): the theorem applied to a cache holding one stale entry
(age 120 ≥ ttl 100) and one fresh entry (age 40 < ttl 100): the sweep
removes exactly the stale one and leaves the fresh one unchanged. -/
theorem claim6_witness :
    mapLookup ((ttlD.Cleanup 120).storege) 0 = none ∧
    mapLookup ((ttlD.Cleanup 120).storege) 1 = some { val := 2, lastVisited := 80 } := by
  have h0 := claim6_cleanup_exact ttlD 120 0 (by decide)
  have h1 := claim6_cleanup_exact ttlD 120 1 (by decide)
  exact ⟨h0.trans (by decide), h1.trans (by decide)⟩

/-- C7: the claim says that with `resetOnAccess` configured, a `Get` of a
present fresh entry returns its value and refreshes `last_access_time` to
`now` (so with ttl = 100, `Put(0, 1)` at t = 0 and `Get(0)` at t = 50, a
`Get(0)` at t = 130 would still hit).  The code never performs that
return: on the scenario's first read — key present, age 50 < 100,
`resetOnRead = true` — `Get` dies with the fatal Go runtime error
`sync: RUnlock of unlocked RWMutex` (the reset path releases the read
lock, write-locks to refresh the timestamp, re-takes the read lock, and
then both deferred RUnlocks run against the single held read lock), so no
value is returned and no refresh ever takes effect. -/
theorem claim7_reset_get_fatal :
    ttl.NewTTL Nat Int 100 true = Except.ok ttlE ∧
    (ttlE.Put 0 0 1).resetOnRead = true ∧
    mapLookup (ttlE.Put 0 0 1).storege 0 = some { val := 1, lastVisited := 0 } ∧
    (50 : Int) - 0 < 100 ∧
    (ttlE.Put 0 0 1).GetGo 50 0 =
      Except.error "sync: RUnlock of unlocked RWMutex" :=
  ⟨rfl, rfl, rfl, by decide, rfl⟩

/-- C8: `Put` of a key already present overwrites the stored value, moves
the key to the most-recently-used position (the tail of the ordering,
without changing which keys are ordered), changes no other binding, and
leaves the cache size and capacity unchanged — no eviction happens. -/
theorem claim8_put_existing {Key Val : Type} [DecidableEq Key]
    (c : cache.lruCache Key Val) (k : Key) (v w : Val)
    (hinv : cache.lruInv c) (hk : mapLookup c.store k = some w) :
    (c.Put k v).store.length = c.store.length ∧
    mapLookup (c.Put k v).store k = some v ∧
    (∀ j, j ≠ k → mapLookup (c.Put k v).store j = mapLookup c.store j) ∧
    (c.Put k v).order.getLast? = some k ∧
    (∀ j, j ∈ (c.Put k v).order ↔ j ∈ c.order) ∧
    (c.Put k v).capacity = c.capacity := by
  obtain ⟨hnd, hperm, hcap, hlen⟩ := hinv
  have hordnd : c.order.Nodup := (hperm.nodup_iff).mp hnd
  have hkord : k ∈ c.order := hperm.mem_iff.mp (mem_of_mapLookup_eq_some hk)
  have hput : c.Put k v =
      { c with store := mapInsert c.store k v, order := c.order.erase k ++ [k] } := by
    unfold cache.lruCache.Put
    rw [hk]
    rfl
  rw [hput]
  refine ⟨length_mapInsert_of_lookup_some hk v, mapLookup_mapInsert_self c.store k v,
    ?_, List.getLast?_concat _, ?_, rfl⟩
  · intro j hj
    exact mapLookup_mapInsert_ne c.store v hj
  · intro j
    simp only [List.mem_append, List.mem_singleton]
    by_cases hjk : j = k
    · subst hjk
      simp [hkord]
    · simp only [hjk, or_false]
      rw [hordnd.mem_erase_iff]
      simp [hjk]

/-- C8 (witness): the theorem applied to a two-entry cache receiving
`Put(0, 7)` with key 0 already present. -/
theorem claim8_witness :
    (lruG.Put 0 7).store.length = lruG.store.length ∧
    mapLookup (lruG.Put 0 7).store 0 = some 7 ∧
    mapLookup (lruG.Put 0 7).store 1 = mapLookup lruG.store 1 ∧
    (lruG.Put 0 7).order.getLast? = some 0 ∧
    (1 ∈ (lruG.Put 0 7).order ↔ 1 ∈ lruG.order) ∧
    (lruG.Put 0 7).capacity = lruG.capacity := by
  have h := claim8_put_existing lruG 0 7 1 (by decide) (by decide)
  exact ⟨h.1, h.2.1, h.2.2.1 1 (by decide), h.2.2.2.1, h.2.2.2.2.1 1, h.2.2.2.2.2⟩

/-- C9: `NewLRU` returns the configuration error exactly when
`capacity <= 0` and `NewTTL` returns the configuration error exactly when
`ttl <= 0`; an error case carries no cache value at all, and a success
returns the empty cache with the requested configuration. -/
theorem claim9_constructor_validation (cap t : Int) (ror : Bool) :
    ((cap ≤ 0) ↔ cache.NewLRU Nat Int cap =
        Except.error "capacity must be greater than zero") ∧
    (∀ c : cache.lruCache Nat Int, cache.NewLRU Nat Int cap = Except.ok c →
        0 < cap ∧ c.capacity = cap.toNat ∧ c.store = [] ∧ c.order = []) ∧
    ((t ≤ 0) ↔ ttl.NewTTL Nat Int t ror =
        Except.error "ttl must be greater than zero.") ∧
    (∀ c : ttl.TTLCache Nat Int, ttl.NewTTL Nat Int t ror = Except.ok c →
        0 < t ∧ c.storege = [] ∧ c.timeToLive = t ∧ c.resetOnRead = ror) := by
  refine ⟨?_, ?_, ?_, ?_⟩
  · by_cases hc : cap ≤ 0
    · simp [cache.NewLRU, hc]
    · simp [cache.NewLRU, hc]
  · intro c h
    unfold cache.NewLRU at h
    by_cases hc : cap ≤ 0
    · simp [hc] at h
    · simp only [hc, if_neg, if_false, Except.ok.injEq] at h
      cases h
      exact ⟨by omega, rfl, rfl, rfl⟩
  · by_cases ht : t ≤ 0
    · simp [ttl.NewTTL, ht]
    · simp [ttl.NewTTL, ht]
  · intro c h
    unfold ttl.NewTTL at h
    by_cases ht : t ≤ 0
    · simp [ht] at h
    · simp only [ht, if_neg, if_false, Except.ok.injEq] at h
      cases h
      exact ⟨by omega, rfl, rfl, rfl⟩

/-- C9 (witness): the theorem instantiated at rejected configurations
(`capacity = 0`, `ttl = -5`) and at accepted ones (`capacity = 2`,
`ttl = 100`). -/
theorem claim9_witness :
    cache.NewLRU Nat Int 0 = Except.error "capacity must be greater than zero" ∧
    ttl.NewTTL Nat Int (-5) false = Except.error "ttl must be greater than zero." ∧
    ((0 : Int) < 2 ∧ lruA.capacity = (2 : Int).toNat ∧ lruA.store = [] ∧ lruA.order = []) ∧
    ((0 : Int) < 100 ∧ ttlB.storege = [] ∧ ttlB.timeToLive = 100 ∧
      ttlB.resetOnRead = false) := by
  have h1 := claim9_constructor_validation 0 (-5) false
  have h2 := claim9_constructor_validation 2 100 false
  exact ⟨h1.1.mp (by decide), h1.2.2.1.mp (by decide),
    h2.2.1 lruA rfl, h2.2.2.2 ttlB rfl⟩

/-- C10: the claim says "move key to tail" and "remove key from anywhere
in the ordering" are O(1).  The source's `recentify` runs
`c.order.IndexOf(k)`, a head-to-tail linear scan of the doubly linked
list (there is no key-to-node index), so its cost is unbounded in the
cache size: for every bound `B` there is a reachable cache (fill a
capacity-`B+1` cache with `B+1` fresh keys) on which the scan for the
most recent key visits more than `B` nodes; concretely, touching key 5 in
a six-key ordering visits 6 nodes. -/
theorem claim10_recentify_linear_scan :
    (∀ B : Nat, ∃ (cap : Int) (ops : List (cache.LRUOp Nat Int)) (k : Nat)
        (c0 : cache.lruCache Nat Int),
        cache.NewLRU Nat Int cap = Except.ok c0 ∧
        k ∈ (cache.runOps c0 ops).order ∧
        B < cache.recentifySteps (cache.runOps c0 ops) k) ∧
    cache.recentifySteps lruH 5 = 6 := by
  refine ⟨?_, by decide⟩
  intro B
  have hcappos : ¬ ((B : Int) + 1 ≤ 0) := by omega
  have htoNat : ((B : Int) + 1).toNat = B + 1 := by omega
  have hrun := cache.runOps_fresh_puts (0 : Int) (List.range (B + 1))
    { capacity := ((B : Int) + 1).toNat, store := [], order := [] }
    (List.nodup_range (B + 1))
    (fun k _ => rfl)
    (by
      show ([] : List (Nat × Int)).length + (List.range (B + 1)).length ≤
        ((B : Int) + 1).toNat
      rw [htoNat]
      simp)
  obtain ⟨hstore, horder, hcapr⟩ := hrun
  refine ⟨(B : Int) + 1, (List.range (B + 1)).map (fun k => cache.LRUOp.put k 0), B,
    { capacity := ((B : Int) + 1).toNat, store := [], order := [] }, ?_, ?_, ?_⟩
  · simp [cache.NewLRU, hcappos]
  · rw [horder]
    simp only [List.nil_append]
    exact List.mem_range.mpr (by omega)
  · unfold cache.recentifySteps
    rw [horder]
    simp only [List.nil_append]
    rw [List.range_succ, cache.indexOfSteps_append_self (List.range B) B
      List.not_mem_range_self]
    simp only [List.length_range]
    omega

end Caches
